import Mathlib

/-!
Verification development for the cnab-to-oci repository.

Part A embeds the registry token-scope accumulator (Go file with
`tokenScopes` / `tokenScope` and friends): a Go map from resource string to
`tokenScope` is embedded as a list of `tokenScope` values whose `resource`
field is the map key (every write site of the Go code stores a token under
key `ts.resource`, so the key always equals the stored token's resource).
The list order models the map's arbitrary iteration order.  Go's `nil` map
is modelled by `Option`, at the operations whose Go code distinguishes a
nil map from an empty one (`contains`, `clone`, the ambient-context value).

Part B (further down) embeds the push-with-fallback protocol of
`src/remotes/push.go`, with the transport, converter, JSON marshalling and
digest computation as injected pure capabilities along the lines of the
repository's own interfaces.
-/

namespace CnabToOci

/-! ### String order

Go's `sort.Strings` sorts by byte-wise lexicographic comparison; on valid
UTF-8 this coincides with code-point-wise lexicographic comparison, which is
what `charListLeb` computes.  The sort itself is an insertion sort lifted to
`Multiset`, so that sorting the key set of a Go map is by construction
independent of the map's iteration order. -/

theorem char_toNat_inj {a b : Char} (h : a.toNat = b.toNat) : a = b :=
  Char.eq_of_val_eq (UInt32.ext h)

/-- Lexicographic less-or-equal on character lists, by code point. -/
def charListLeb : List Char → List Char → Bool
  | [], _ => true
  | _ :: _, [] => false
  | a :: as, b :: bs =>
    if a.toNat < b.toNat then true
    else if b.toNat < a.toNat then false
    else charListLeb as bs

theorem charListLeb_total : ∀ l₁ l₂, charListLeb l₁ l₂ = true ∨ charListLeb l₂ l₁ = true
  | [], _ => .inl rfl
  | _ :: _, [] => .inr rfl
  | a :: as, b :: bs => by
    simp only [charListLeb]
    rcases Nat.lt_trichotomy a.toNat b.toNat with h | h | h
    · left
      simp [h]
    · have h1 : ¬ a.toNat < b.toNat := by omega
      have h2 : ¬ b.toNat < a.toNat := by omega
      rcases charListLeb_total as bs with ih | ih <;> simp [h1, h2, ih]
    · have h1 : ¬ a.toNat < b.toNat := by omega
      right
      simp [h, h1]

theorem charListLeb_trans :
    ∀ l₁ l₂ l₃, charListLeb l₁ l₂ = true → charListLeb l₂ l₃ = true → charListLeb l₁ l₃ = true
  | [], _, _, _, _ => rfl
  | _ :: _, [], _, h, _ => by simp [charListLeb] at h
  | _ :: _, _ :: _, [], _, h => by simp [charListLeb] at h
  | a :: as, b :: bs, c :: cs, h1, h2 => by
    simp only [charListLeb] at h1 h2 ⊢
    rcases Nat.lt_trichotomy a.toNat b.toNat with hab | hab | hab
    · rcases Nat.lt_trichotomy b.toNat c.toNat with hbc | hbc | hbc
      · simp [show a.toNat < c.toNat by omega]
      · simp [show a.toNat < c.toNat by omega]
      · simp [show ¬ b.toNat < c.toNat by omega, hbc] at h2
    · rcases Nat.lt_trichotomy b.toNat c.toNat with hbc | hbc | hbc
      · simp [show a.toNat < c.toNat by omega]
      · have hac : ¬ a.toNat < c.toNat := by omega
        have hca : ¬ c.toNat < a.toNat := by omega
        simp only [if_neg hac, if_neg hca]
        have h1' : charListLeb as bs = true := by
          simpa [show ¬ a.toNat < b.toNat by omega, show ¬ b.toNat < a.toNat by omega] using h1
        have h2' : charListLeb bs cs = true := by
          simpa [show ¬ b.toNat < c.toNat by omega, show ¬ c.toNat < b.toNat by omega] using h2
        exact charListLeb_trans as bs cs h1' h2'
      · simp [show ¬ b.toNat < c.toNat by omega, hbc] at h2
    · simp [show ¬ a.toNat < b.toNat by omega, hab] at h1

theorem charListLeb_antisymm :
    ∀ l₁ l₂, charListLeb l₁ l₂ = true → charListLeb l₂ l₁ = true → l₁ = l₂
  | [], [], _, _ => rfl
  | [], _ :: _, _, h => by simp [charListLeb] at h
  | _ :: _, [], h, _ => by simp [charListLeb] at h
  | a :: as, b :: bs, h1, h2 => by
    simp only [charListLeb] at h1 h2
    rcases Nat.lt_trichotomy a.toNat b.toNat with hab | hab | hab
    · simp [show ¬ b.toNat < a.toNat by omega, hab] at h2
    · have hab1 : ¬ a.toNat < b.toNat := by omega
      have hba1 : ¬ b.toNat < a.toNat := by omega
      simp only [if_neg hab1, if_neg hba1] at h1 h2
      rw [char_toNat_inj hab, charListLeb_antisymm as bs h1 h2]
    · simp [show ¬ a.toNat < b.toNat by omega, hab] at h1

/-- Model of Go's byte-wise string comparison used by `sort.Strings`. -/
def strLe (a b : String) : Prop := charListLeb a.data b.data = true

instance : DecidableRel strLe := fun a b => by unfold strLe; infer_instance

instance : IsTrans String strLe := ⟨fun a b c => charListLeb_trans a.data b.data c.data⟩

instance : IsTotal String strLe := ⟨fun a b => charListLeb_total a.data b.data⟩

instance : IsAntisymm String strLe :=
  ⟨fun a b h1 h2 => String.toList_inj.mp (charListLeb_antisymm a.data b.data h1 h2)⟩

instance : IsRefl String strLe :=
  ⟨fun a => by rcases charListLeb_total a.data a.data with h | h <;> exact h⟩

/-- Model of Go `sort.Strings` on a slice. -/
def sortStrings (l : List String) : List String := List.insertionSort strLe l

/-- Sorting a multiset of strings; well defined because sorted permutations agree. -/
def msortStrings (s : Multiset String) : List String :=
  Quot.liftOn s sortStrings fun _ _ h =>
    List.eq_of_perm_of_sorted
      ((List.perm_insertionSort _ _).trans (h.trans (List.perm_insertionSort _ _).symm))
      (List.sorted_insertionSort _ _) (List.sorted_insertionSort _ _)

/-- Model of collecting a Go string-keyed map's keys and applying `sort.Strings`:
the result does not depend on the iteration order, hence a function of the key set. -/
def sortedKeys (s : Finset String) : List String := msortStrings s.val

/-- Embedding of the Go struct `tokenScope { resource string; actions map[string]interface{} }`.
The action map's values are never read by the Go code (only key presence), so the
action map is embedded as a finite set of strings. -/
structure tokenScope where
  resource : String
  actions : Finset String
deriving DecidableEq

/-- Embedding of the Go type `tokenScopes = map[string]tokenScope` (a non-nil map value):
a list of tokens, the token's `resource` field being the map key.  The list order
stands for the map's iteration order. -/
abbrev tokenScopes := List tokenScope

/-- Embedding of Go `tokenScopes.add`: if no token is stored for `ts.resource`, the
token is inserted; otherwise the keys of `ts.actions` are added into the stored
token's action map in place (a set union).  Updating the unique entry for a key in
a Go map is embedded as a map over the list guarded by key equality. -/
def tokenScopes.add (scopes : tokenScopes) (ts : tokenScope) : tokenScopes :=
  if scopes.any (fun e => e.resource == ts.resource) then
    scopes.map (fun e =>
      if e.resource = ts.resource then { e with actions := e.actions ∪ ts.actions } else e)
  else
    scopes ++ [ts]

/-- Embedding of Go `tokenScopes.merge`: `add` applied for every token of `other`,
in iteration order. -/
def tokenScopes.merge (scopes other : tokenScopes) : tokenScopes :=
  other.foldl tokenScopes.add scopes

/-- Map lookup `scopes[k]` of the Go code. -/
def tokenScopes.lookup (scopes : tokenScopes) (k : String) : Option tokenScope :=
  scopes.find? (fun e => e.resource == k)

/-- Embedding of Go `tokenScopes.contains`, including its two nil tests: a nil
`other` is contained in anything; a nil receiver contains only a nil `other`;
otherwise every token of `other` must be present in the receiver with a superset
of its actions. -/
def tokenScopes.contains (scopes other : Option tokenScopes) : Bool :=
  match other with
  | none => true
  | some o =>
    match scopes with
    | none => false
    | some s =>
      o.all (fun v =>
        match tokenScopes.lookup s v.resource with
        | none => false
        | some existing => decide (v.actions ⊆ existing.actions))

/-- Embedding of Go `tokenScope.String`: the action keys are collected, sorted with
`sort.Strings` and joined with commas (`strings.Join` is `List.intercalate` at the
character level), and the result is `resource ++ ":" ++ joined`. -/
def tokenScope.String (ts : tokenScope) : String :=
  ⟨ts.resource.data ++ ':' :: List.intercalate [','] ((sortedKeys ts.actions).map String.data)⟩

/-- Embedding of Go `tokenScopes.flatten`: the `String` form of every stored token
is collected (in map iteration order) and the result is sorted with `sort.Strings`
(embedded as an insertion sort by the string order). -/
def tokenScopes.flatten (scopes : tokenScopes) : List String :=
  sortStrings (scopes.map tokenScope.String)

/-- Embedding of Go `parseTokenScope`: the input is split at its last colon; with no
colon present a parse error is returned; the part after the last colon is split on
commas and every piece becomes an action-map key (a set member). -/
def parseTokenScope (s : String) : Except String tokenScope :=
  match s.data.reverse.findIdx? (· = ':') with
  | none => .error (toString s ++ " is not a valid token scope")
  | some j =>
    let lastSep := s.data.length - 1 - j
    let actions := ((s.data.drop (lastSep + 1)).splitOn ',').map (fun l => (⟨l⟩ : String))
    .ok { resource := ⟨s.data.take lastSep⟩, actions := actions.toFinset }

/-- Control bytes rejected by Go net/url everywhere in a URL
(`stringContainsCTLByte`): code points below 32 and 127. -/
def isCtlChar (c : Char) : Bool := c.toNat < 32 || c.toNat == 127

def isAlphaNumChar (c : Char) : Bool :=
  (48 ≤ c.toNat && c.toNat ≤ 57) || (65 ≤ c.toNat && c.toNat ≤ 90) ||
    (97 ≤ c.toNat && c.toNat ≤ 122)

/-- Characters net/url accepts unescaped in a host name (those on which
`shouldEscape(c, encodeHost)` is false): alphanumerics, the characters with
codes 33 34 36 38 39 40 41 42 43 44 45 46 58 59 60 61 62 91 93 95 126
(`! " $ & ( ) * + , - . : ; < = > [ ] _ ~` and the apostrophe), and non-ASCII
code points (Go applies the check to bytes below 0x80 only).  A space, for
instance, is rejected — Go reports `invalid character in host name`. -/
def hostCharOK (c : Char) : Bool :=
  isAlphaNumChar c ||
  c.toNat == 33 || c.toNat == 34 || c.toNat == 36 || c.toNat == 38 || c.toNat == 39 ||
  c.toNat == 40 || c.toNat == 41 || c.toNat == 42 || c.toNat == 43 || c.toNat == 44 ||
  c.toNat == 45 || c.toNat == 46 || c.toNat == 58 || c.toNat == 59 || c.toNat == 60 ||
  c.toNat == 61 || c.toNat == 62 || c.toNat == 91 || c.toNat == 93 || c.toNat == 95 ||
  c.toNat == 126 || 128 ≤ c.toNat

/-- Characters net/url accepts in the userinfo component (`validUserinfo`):
alphanumerics and the characters with codes
33 36 38 39 40 41 42 43 44 45 46 58 59 61 64 95 126; the percent character,
which Go accepts only as the start of an escape, is outside the model. -/
def userinfoCharOK (c : Char) : Bool :=
  isAlphaNumChar c ||
  c.toNat == 33 || c.toNat == 36 || c.toNat == 38 || c.toNat == 39 || c.toNat == 40 ||
  c.toNat == 41 || c.toNat == 42 || c.toNat == 43 || c.toNat == 44 || c.toNat == 45 ||
  c.toNat == 46 || c.toNat == 58 || c.toNat == 59 || c.toNat == 61 || c.toNat == 64 ||
  c.toNat == 95 || c.toNat == 126

/-- Embedding of net/url `validOptionalPort`: empty, or a colon followed by
decimal digits only. -/
def validOptionalPort : List Char → Bool
  | [] => true
  | ':' :: digits => digits.all (fun c => 48 ≤ c.toNat && c.toNat ≤ 57)
  | _ => false

/-- Index of the last occurrence of a character, as `strings.LastIndex` on a
single-character separator. -/
def lastIndexOf (c : Char) (l : List Char) : Option Nat :=
  (l.reverse.findIdx? (· = c)).map (fun j => l.length - 1 - j)

/-- Embedding of net/url `parseHost` for non-bracketed hosts: the optional port
after the last colon must be numeric, and every character must be acceptable in
a host name.  Bracketed (IPv6) hosts are outside the model and conservatively
reported as failures. -/
def goHostOK (host : List Char) : Bool :=
  !(host.head? == some '[') &&
  (match lastIndexOf ':' host with
   | none => true
   | some i => validOptionalPort (host.drop i)) &&
  host.all hostCharOK

/-- Embedding of net/url `parseAuthority`: the userinfo before the last `@` must
consist of userinfo characters, and the remainder must be a valid host. -/
def goAuthorityOK (authority : List Char) : Bool :=
  match lastIndexOf '@' authority with
  | none => goHostOK authority
  | some i => (authority.take i).all userinfoCharOK && goHostOK (authority.drop (i + 1))

/-- Model of Go `url.Parse ("dummy://" ++ locator)` followed by reading `u.Path`:
a locator containing a control character is rejected (as `stringContainsCTLByte`
rejects the whole raw URL); the fragment is cut at the first `#` and the query at
the first `?`; the authority runs to the first `/` and its userinfo, host and
port are validated as net/url does; the path is the rest, empty when no slash is
present.  Percent escapes — which Go decodes when followed by valid hex digits
and rejects otherwise — and bracketed IPv6 hosts are outside the model: the
model reports a failure for every locator containing `%` and for every host
starting with `[`, so no success statement covers such locators, and on its
success domain the model agrees with Go exactly (nothing is decoded). -/
def goURLPath (locator : String) : Except String (List Char) :=
  if locator.data.any isCtlChar then
    .error "net/url: invalid control character in URL"
  else if locator.data.any (· == '%') then
    .error "percent escape outside the model"
  else
    let noFrag := locator.data.takeWhile (· ≠ '#')
    let noQuery := noFrag.takeWhile (· ≠ '?')
    let authority := noQuery.takeWhile (· ≠ '/')
    if goAuthorityOK authority then .ok (noQuery.dropWhile (· ≠ '/'))
    else .error "invalid host"

/-- Embedding of Go `strings.TrimPrefix(p, "/")`. -/
def trimLeadingSlash : List Char → List Char
  | '/' :: rest => rest
  | l => l

/-- Embedding of Go `repositoryScope`: a `url.Parse` failure is returned as an
error; otherwise the token has resource `"repository:" ++ path` with the path's
leading slash removed, actions `{"pull"}`, plus `"push"` when the push flag is
set. -/
def repositoryScope (locator : String) (push : Bool) : Except String tokenScope :=
  match goURLPath locator with
  | .error e => .error e
  | .ok path =>
    let base : Finset String := {"pull"}
    .ok { resource := "repository:" ++ (⟨trimLeadingSlash path⟩ : String),
          actions := if push then insert "push" base else base }

/-! ### Part B: the push protocol of `src/remotes/push.go`

Errors are embedded as a message plus the one bit the protocol inspects,
namely whether `errors.Cause(err) == errdefs.ErrAlreadyExists`.  The
resolver transport is an injected capability: for every push site
(reference, descriptor, payload) it reports the outcome of the four
stages of `pushPayload` — `resolver.Pusher`, `pusher.Push` (sink
acquisition), `writer.Write` and `writer.Commit` (`none` meaning that
stage succeeds).  Context muting and the deferred `writer.Close` have no
effect on returned values and are not modelled. -/

/-- Embedding of a Go error as seen by push.go: its message and whether its
cause is the distinguished `errdefs.ErrAlreadyExists`. -/
structure GoError where
  causeIsAlreadyExists : Bool
  msg : String
deriving DecidableEq

/-- Embedding of `fmt.Errorf` wrapping: a fresh error whose cause is itself,
hence never the already-exists sentinel. -/
def wrapErr (pre : String) (e : GoError) : GoError := ⟨false, pre ++ e.msg⟩

/-- Embedding of `ocischemav1.Descriptor` (the fields push.go uses). -/
structure Descriptor where
  digest : String
  mediaType : String
  size : Int
deriving DecidableEq

def MediaTypeImageIndex : String := "application/vnd.oci.image.index.v1+json"

def MediaTypeDockerSchema2ManifestList : String :=
  "application/vnd.docker.distribution.manifest.list.v2+json"

/-- Outcome reported by the transport for one `pushPayload` call: an optional
error at each of the four stages, in order. -/
structure PushAttempt where
  pusherErr : Option GoError
  pushErr : Option GoError
  writeErr : Option GoError
  commitErr : Option GoError
deriving DecidableEq

/-- Injected resolver/pusher transport capability. -/
structure Transport where
  attempt : String → Descriptor → String → PushAttempt

/-- Embedding of the check `if errors.Cause(err) == errdefs.ErrAlreadyExists { return nil }; return err`. -/
def absorbAlreadyExists (e : GoError) : Option GoError :=
  if e.causeIsAlreadyExists then none else some e

/-- Embedding of Go `pushPayload`: the resolver error is returned as is; a sink
acquisition, write or commit error is absorbed when its cause is the
already-exists sentinel, and returned otherwise. -/
def pushPayload (t : Transport) (ref : String) (descriptor : Descriptor) (payload : String) :
    Option GoError :=
  let a := t.attempt ref descriptor payload
  match a.pusherErr with
  | some e => some e
  | none =>
    match a.pushErr with
    | some e => absorbAlreadyExists e
    | none =>
      match a.writeErr with
      | some e => absorbAlreadyExists e
      | none =>
        match a.commitErr with
        | some e => absorbAlreadyExists e
        | none => none

/-- One representation of the bundle config: blob, manifest and their descriptors
(the non-link fields of Go `converter.PreparedBundleConfig`). -/
structure BundleConfigRepr where
  configBlob : String
  configBlobDescriptor : Descriptor
  manifest : String
  manifestDescriptor : Descriptor
deriving DecidableEq

/-- Embedding of the `Fallback *PreparedBundleConfig` linked chain: `last` has a
nil fallback pointer, `cons` a non-nil one. -/
inductive PreparedBundleConfig : Type where
  | last (r : BundleConfigRepr)
  | cons (r : BundleConfigRepr) (fallback : PreparedBundleConfig)
deriving DecidableEq

/-- Fields of the chain's first representation. -/
def PreparedBundleConfig.head : PreparedBundleConfig → BundleConfigRepr
  | .last r => r
  | .cons r _ => r

/-- The representations of the chain, in fallback order. -/
def PreparedBundleConfig.reprs : PreparedBundleConfig → List BundleConfigRepr
  | .last r => [r]
  | .cons r fb => r :: fb.reprs

/-- Embedding of Go `pushBundleConfig`: push the config blob, then the config
manifest; on an error from either, recurse on the fallback when one exists and
fallbacks are allowed, otherwise propagate the error; on success return the
current representation's manifest descriptor. -/
def pushBundleConfig (t : Transport) (ref : String) :
    PreparedBundleConfig → Bool → Except GoError Descriptor
  | .last r, _ =>
    match pushPayload t ref r.configBlobDescriptor r.configBlob with
    | some e => .error e
    | none =>
      match pushPayload t ref r.manifestDescriptor r.manifest with
      | some e => .error e
      | none => .ok r.manifestDescriptor
  | .cons r fb, allowFallbacks =>
    match pushPayload t ref r.configBlobDescriptor r.configBlob with
    | some e =>
      if allowFallbacks then pushBundleConfig t ref fb allowFallbacks else .error e
    | none =>
      match pushPayload t ref r.manifestDescriptor r.manifest with
      | some e =>
        if allowFallbacks then pushBundleConfig t ref fb allowFallbacks else .error e
      | none => .ok r.manifestDescriptor

/-- Embedding of `ocischemav1.Index` (the fields push.go manipulates: the
schema-version tag of the embedded `versioned.Versioned` and the referenced
manifest descriptors). -/
structure OCIIndex where
  schemaVersion : Nat
  manifests : List Descriptor
deriving DecidableEq

/-- Embedding of the Go wrapper `ociIndexWrapper`: an index plus an explicit
`mediaType` field for the Docker manifest-list envelope. -/
structure ociIndexWrapper where
  index : OCIIndex
  mediaType : String
deriving DecidableEq

/-- Embedding of the Go callback type `ManifestOption`, as a pure function. -/
abbrev ManifestOption := OCIIndex → Except GoError OCIIndex

/-- Injected external collaborators of push.go, specialised to the bundle and
reference of one `Push` call: the bundle-config conversion, the bundle-to-index
conversion, JSON marshalling of the two envelopes, and digest computation. -/
structure ConverterEnv where
  prepareForPush : Except GoError PreparedBundleConfig
  convertBundleToOCIIndex : Descriptor → Except GoError OCIIndex
  marshalIndex : OCIIndex → Except GoError String
  marshalWrapper : ociIndexWrapper → Except GoError String
  digestFromBytes : String → String

/-- Embedding of the option loop of Go `convertIndexAndApplyOptions`: each
callback may rewrite the index or fail, a failure being wrapped and propagated. -/
def applyOptions : OCIIndex → List ManifestOption → Except GoError OCIIndex
  | ix, [] => .ok ix
  | ix, o :: os =>
    match o ix with
    | .error e => .error (wrapErr "failed to prepare bundle manifest: " e)
    | .ok ix2 => applyOptions ix2 os

/-- Embedding of Go `convertIndexAndApplyOptions`. -/
def convertIndexAndApplyOptions (env : ConverterEnv) (confDescriptor : Descriptor)
    (options : List ManifestOption) : Except GoError OCIIndex :=
  match env.convertBundleToOCIIndex confDescriptor with
  | .error e => .error e
  | .ok ix => applyOptions ix options

/-- Embedding of Go `prepareIndex`: marshal the converted index and form its
descriptor with the OCI index media type, the payload digest and length. -/
def prepareIndex (env : ConverterEnv) (confDescriptor : Descriptor)
    (options : List ManifestOption) : Except GoError (Descriptor × String) :=
  match convertIndexAndApplyOptions env confDescriptor options with
  | .error e => .error e
  | .ok ix =>
    match env.marshalIndex ix with
    | .error e => .error (wrapErr "invalid bundle manifest: " e)
    | .ok indexPayload =>
      .ok ({ digest := env.digestFromBytes indexPayload,
             mediaType := MediaTypeImageIndex,
             size := (indexPayload.length : Int) }, indexPayload)

/-- Embedding of Go `prepareIndexNonOCI`: the same converted index, wrapped with
the Docker manifest-list media type and schema version 2, marshalled, and its
descriptor recomputed from the re-serialized payload. -/
def prepareIndexNonOCI (env : ConverterEnv) (confDescriptor : Descriptor)
    (options : List ManifestOption) : Except GoError (Descriptor × String) :=
  match convertIndexAndApplyOptions env confDescriptor options with
  | .error e => .error e
  | .ok ix =>
    let w : ociIndexWrapper :=
      { index := { ix with schemaVersion := 2 },
        mediaType := MediaTypeDockerSchema2ManifestList }
    match env.marshalWrapper w with
    | .error e => .error (wrapErr "invalid bundle manifest: " e)
    | .ok indexPayload =>
      .ok ({ digest := env.digestFromBytes indexPayload,
             mediaType := MediaTypeDockerSchema2ManifestList,
             size := (indexPayload.length : Int) }, indexPayload)

/-- Embedding of Go `Push`: prepare the config chain, push it, prepare and push
the OCI index; on an index push error abort when fallbacks are not allowed,
otherwise rebuild once as a Docker manifest-list and retry once, returning the
retry's descriptor on success and its error on failure.  `refName` is
`ref.Name()` (used for the config push) and `refFull` is `ref.String()` (used
for the index push). -/
def Push (env : ConverterEnv) (t : Transport) (refName refFull : String)
    (allowFallbacks : Bool) (options : List ManifestOption) : Except GoError Descriptor :=
  match env.prepareForPush with
  | .error e => .error e
  | .ok bundleConfig =>
    match pushBundleConfig t refName bundleConfig allowFallbacks with
    | .error e => .error (wrapErr "error while pushing bundle config manifest: " e)
    | .ok confManifestDescriptor =>
      match prepareIndex env confManifestDescriptor options with
      | .error e => .error e
      | .ok (indexDescriptor, indexPayload) =>
        match pushPayload t refFull indexDescriptor indexPayload with
        | none => .ok indexDescriptor
        | some e =>
          if !allowFallbacks then .error e
          else
            match prepareIndexNonOCI env confManifestDescriptor options with
            | .error e2 => .error e2
            | .ok (d2, p2) =>
              match pushPayload t refFull d2 p2 with
              | some e2 => .error e2
              | none => .ok d2

/-! ### Part C: heap model of the scope accumulator

The claim about `clone` is a statement about in-place mutation, so the
action maps are given explicit identity here: a heap is a list of
action-set cells addressed by allocation index, a stored token is a
resource string plus a cell reference, and `add` on an existing resource
mutates the referenced cell in place exactly as the Go code mutates
`match.actions`.  `clone` allocates a fresh cell per token, copying its
contents — the deep copy of Go `tokenScope.clone`.  Tokens passed to `add`
are freshly allocated, as at every construction site of `tokenScope` in
the Go file (`repositoryScope`, `parseTokenScope` build fresh map
literals). -/

abbrev Heap := List (Finset String)

def Heap.get (h : Heap) (r : Nat) : Finset String := h.getD r ∅

def Heap.setCell (h : Heap) (r : Nat) (a : Finset String) : Heap := h.set r a

def Heap.alloc (h : Heap) (a : Finset String) : Heap × Nat := (h ++ [a], h.length)

/-- Stored map entries: resource key together with the token's action-map cell. -/
abbrev scopeEntries := List (String × Nat)

def heapLookupRef : scopeEntries → String → Option Nat
  | [], _ => none
  | (k, r) :: rest, q => if k = q then some r else heapLookupRef rest q

/-- Heap-level embedding of Go `tokenScopes.add` for a token `(resource, r)`:
when the resource is absent the token (with its map reference) is stored;
otherwise the existing token's cell is mutated in place by unioning the added
token's actions into it. -/
def heapAdd (h : Heap) (s : scopeEntries) (resource : String) (r : Nat) : Heap × scopeEntries :=
  match heapLookupRef s resource with
  | none => (h, s ++ [(resource, r)])
  | some r0 => (Heap.setCell h r0 (Heap.get h r0 ∪ Heap.get h r), s)

/-- An `add` call whose token argument is a freshly constructed map literal,
as at the Go call sites: allocate the action set, then `add`. -/
def heapAddToken (h : Heap) (s : scopeEntries) (resource : String) (actions : Finset String) :
    Heap × scopeEntries :=
  let p := Heap.alloc h actions
  heapAdd p.1 s resource p.2

/-- Heap-level embedding of Go `tokenScopes.clone` on a non-nil map: every
token is copied with a freshly allocated copy of its action map. -/
def heapClone : Heap → scopeEntries → Heap × scopeEntries
  | h, [] => (h, [])
  | h, (k, r) :: rest =>
    let p := Heap.alloc h (Heap.get h r)
    let q := heapClone p.1 rest
    (q.1, (k, p.2) :: q.2)

/-- Heap-level embedding of Go `tokenScopes.flatten`, reading action maps
through the heap. -/
def heapFlatten (h : Heap) (s : scopeEntries) : List String :=
  sortStrings (s.map (fun e => tokenScope.String ⟨e.1, Heap.get h e.2⟩))

/-- A sequence of `add` calls with freshly constructed tokens. -/
def heapAddAll : Heap → scopeEntries → List (String × Finset String) → Heap × scopeEntries
  | h, s, [] => (h, s)
  | h, s, (k, a) :: rest =>
    let p := heapAddToken h s k a
    heapAddAll p.1 p.2 rest

/-- Embedding of a Go context as the scope value it carries under
`tokenScopesKey`: a nil or non-nil `tokenScopes` map. -/
structure GoContext where
  scopes : Option scopeEntries

/-- Embedding of Go `getContextScopes`. -/
def getContextScopes (ctx : GoContext) : Option scopeEntries := ctx.scopes

/-- Embedding of Go `contextWithRepositoryScope`: a `repositoryScope` failure is
returned as an error (Go returns `nil, err` and attaches nothing); otherwise the
ambient scope is cloned (nil cloning to nil), nil is replaced by an empty map,
the repository scope for the locator and push flag is added, and the result is
attached to a child context. -/
def contextWithRepositoryScope (h : Heap) (ctx : GoContext) (locator : String) (push : Bool) :
    Except String (Heap × GoContext) :=
  match repositoryScope locator push with
  | .error e => .error e
  | .ok ts =>
    let p :=
      match getContextScopes ctx with
      | none => (h, (none : Option scopeEntries))
      | some s => ((heapClone h s).1, some (heapClone h s).2)
    let s0 := p.2.getD []
    let q := heapAddToken p.1 s0 ts.resource ts.actions
    .ok (q.1, ⟨some q.2⟩)

deriving instance DecidableEq for Except

/-! ### Theorems -/

theorem string_eta (s : String) : (⟨s.data⟩ : String) = s := rfl

theorem dropWhile_append_of_all {α : Type} {p : α → Bool} :
    ∀ (l₁ l₂ : List α), (∀ c ∈ l₁, p c = true) →
      List.dropWhile p (l₁ ++ l₂) = List.dropWhile p l₂
  | [], _, _ => rfl
  | a :: as, l₂, h => by
    have ha : p a = true := h a (List.mem_cons_self a as)
    simp only [List.cons_append, List.dropWhile_cons, ha, if_true]
    exact dropWhile_append_of_all as l₂ fun c hc => h c (List.mem_cons_of_mem a hc)

theorem takeWhile_append_stop {α : Type} {p : α → Bool} :
    ∀ (l₁ : List α) (a : α) (l₂ : List α), (∀ c ∈ l₁, p c = true) → p a = false →
      List.takeWhile p (l₁ ++ a :: l₂) = l₁
  | [], a, l₂, _, ha => by simp [List.takeWhile_cons, ha]
  | b :: bs, a, l₂, h, ha => by
    have hb : p b = true := h b (List.mem_cons_self b bs)
    simp only [List.cons_append, List.takeWhile_cons, hb, if_true]
    rw [takeWhile_append_stop bs a l₂ (fun c hc => h c (List.mem_cons_of_mem b hc)) ha]

/-- Claim C4, counterexample: the code returns `false` for a nil receiver and an
empty non-nil `other`, where the claim (`contains(other)` is true whenever
`other` is nil or empty, for every receiver) demands `true`. -/
theorem C4_counterexample :
    tokenScopes.contains none (some []) = false := by decide

/-- Claim C4 (amended): `contains` of a nil `other` is true for every receiver;
a non-nil receiver contains an empty `other`; and a nil receiver's `contains`
returns false for every non-nil `other`, empty or not. -/
theorem C4_contains_nil_cases (S : Option tokenScopes) (s o : tokenScopes) :
    tokenScopes.contains S none = true ∧
    tokenScopes.contains (some s) (some []) = true ∧
    tokenScopes.contains none (some o) = false := by
  refine ⟨?_, rfl, rfl⟩
  cases S <;> rfl

/-- Claim C5, counterexample: adding a token with an empty action set for a
resource that is absent is not a no-op — the token is inserted and `flatten`
gains the string `"r:"`. -/
theorem C5_counterexample :
    tokenScopes.add [] ⟨"r", ∅⟩ = [⟨"r", ∅⟩] ∧
    tokenScopes.flatten (tokenScopes.add [] ⟨"r", ∅⟩) = ["r:"] ∧
    tokenScopes.flatten ([] : tokenScopes) = [] := by decide

/-- Claim C5 (amended): adding a token with an empty action set is a no-op when
a token for its resource is already present: the set and its `flatten` output
are unchanged.  (When the resource is absent, the code inserts the token.) -/
theorem C5_add_empty_actions (S : tokenScopes) (ts : tokenScope)
    (hempty : ts.actions = ∅)
    (hpresent : S.any (fun e => e.resource == ts.resource) = true) :
    tokenScopes.add S ts = S ∧
    tokenScopes.flatten (tokenScopes.add S ts) = tokenScopes.flatten S := by
  have hset : tokenScopes.add S ts = S := by
    unfold tokenScopes.add
    rw [if_pos hpresent]
    have : ∀ e ∈ S,
        (if e.resource = ts.resource then { e with actions := e.actions ∪ ts.actions } else e) = e := by
      intro e _
      obtain ⟨res, acts⟩ := e
      by_cases hres : res = ts.resource <;> simp [hres, hempty]
    rw [List.map_congr_left this]
    exact List.map_id S
  exact ⟨hset, by rw [hset]⟩

/-- Witness for C5_add_empty_actions at a concrete set and token. -/
theorem C5_add_empty_actions_witness :
    tokenScopes.add [⟨"r", {"pull"}⟩] ⟨"r", ∅⟩ = [⟨"r", {"pull"}⟩] ∧
    tokenScopes.flatten (tokenScopes.add [⟨"r", {"pull"}⟩] ⟨"r", ∅⟩) =
      tokenScopes.flatten [⟨"r", {"pull"}⟩] :=
  C5_add_empty_actions [⟨"r", {"pull"}⟩] ⟨"r", ∅⟩ (by decide) (by decide)

theorem add_resource_preserved (t e : tokenScope) :
    (if e.resource = t.resource then { e with actions := e.actions ∪ t.actions } else e).resource
      = e.resource := by
  by_cases h : e.resource = t.resource <;> simp [h]

theorem lookup_add_superset (S : tokenScopes) (t : tokenScope) {k : String} {v : tokenScope}
    (h : tokenScopes.lookup S k = some v) :
    ∃ w, tokenScopes.lookup (tokenScopes.add S t) k = some w ∧ v.actions ⊆ w.actions := by
  unfold tokenScopes.add
  by_cases hp : S.any (fun e => e.resource == t.resource) = true
  · rw [if_pos hp]
    unfold tokenScopes.lookup at h ⊢
    rw [List.find?_map]
    have hpred :
        ((fun e : tokenScope => e.resource == k) ∘
          (fun e => if e.resource = t.resource then { e with actions := e.actions ∪ t.actions } else e))
        = fun e : tokenScope => e.resource == k := by
      funext e
      simp [Function.comp, add_resource_preserved t e]
    rw [hpred, h]
    by_cases hv : v.resource = t.resource
    · exact ⟨_, rfl, by simp [hv, Finset.subset_union_left]⟩
    · exact ⟨_, rfl, by simp [hv]⟩
  · rw [if_neg hp]
    unfold tokenScopes.lookup at h ⊢
    rw [List.find?_append, h]
    exact ⟨v, rfl, Finset.Subset.refl _⟩

theorem lookup_add_self (S : tokenScopes) (t : tokenScope) :
    ∃ w, tokenScopes.lookup (tokenScopes.add S t) t.resource = some w ∧
      t.actions ⊆ w.actions := by
  by_cases hp : S.any (fun e => e.resource == t.resource) = true
  · obtain ⟨e, he, hres⟩ := List.any_eq_true.mp hp
    have hsome : (tokenScopes.lookup S t.resource).isSome = true := by
      unfold tokenScopes.lookup
      exact List.find?_isSome.mpr ⟨e, he, hres⟩
    obtain ⟨v, hv⟩ := Option.isSome_iff_exists.mp hsome
    have hvres : v.resource = t.resource := by
      have := List.find?_some hv
      simpa using this
    unfold tokenScopes.add
    rw [if_pos hp]
    unfold tokenScopes.lookup at hv ⊢
    rw [List.find?_map]
    have hpred :
        ((fun e : tokenScope => e.resource == t.resource) ∘
          (fun e => if e.resource = t.resource then { e with actions := e.actions ∪ t.actions } else e))
        = fun e : tokenScope => e.resource == t.resource := by
      funext e
      simp [Function.comp, add_resource_preserved t e]
    rw [hpred, hv]
    exact ⟨_, rfl, by simp [hvres, Finset.subset_union_right]⟩
  · unfold tokenScopes.add
    rw [if_neg hp]
    unfold tokenScopes.lookup
    rw [List.find?_append]
    have hnone : S.find? (fun e => e.resource == t.resource) = none := by
      rw [List.find?_eq_none]
      intro x hx hpx
      exact hp (List.any_eq_true.mpr ⟨x, hx, hpx⟩)
    rw [hnone]
    exact ⟨t, by simp, Finset.Subset.refl _⟩

theorem lookup_merge_superset (B : tokenScopes) : ∀ (A : tokenScopes) {k : String} {v : tokenScope},
    tokenScopes.lookup A k = some v →
    ∃ w, tokenScopes.lookup (tokenScopes.merge A B) k = some w ∧ v.actions ⊆ w.actions := by
  induction B with
  | nil =>
    intro A k v h
    exact ⟨_, h, Finset.Subset.refl _⟩
  | cons b B ih =>
    intro A k v h
    obtain ⟨w, hw, hsub⟩ := lookup_add_superset A b h
    obtain ⟨w2, hw2, hsub2⟩ := ih (tokenScopes.add A b) hw
    exact ⟨w2, hw2, Finset.Subset.trans hsub hsub2⟩

theorem lookup_merge_of_mem (B : tokenScopes) : ∀ (A : tokenScopes) {b : tokenScope}, b ∈ B →
    ∃ w, tokenScopes.lookup (tokenScopes.merge A B) b.resource = some w ∧
      b.actions ⊆ w.actions := by
  induction B with
  | nil =>
    intro A b hb
    exact absurd hb (List.not_mem_nil _)
  | cons b0 B ih =>
    intro A b hb
    rcases List.mem_cons.mp hb with hb | hb
    · subst hb
      obtain ⟨w, hw, hsub⟩ := lookup_add_self A b
      obtain ⟨w2, hw2, hsub2⟩ := lookup_merge_superset B (tokenScopes.add A b) hw
      exact ⟨w2, hw2, Finset.Subset.trans hsub hsub2⟩
    · exact ih (tokenScopes.add A b0) hb

theorem lookup_of_mem_nodup :
    ∀ (S : tokenScopes), (S.map tokenScope.resource).Nodup →
      ∀ {v : tokenScope}, v ∈ S → tokenScopes.lookup S v.resource = some v := by
  intro S
  induction S with
  | nil => exact fun _ _ hv => absurd hv (List.not_mem_nil _)
  | cons e S ih =>
    intro hnd v hv
    rw [List.map_cons, List.nodup_cons] at hnd
    rcases List.mem_cons.mp hv with hv | hv
    · subst hv
      unfold tokenScopes.lookup
      simp [List.find?_cons]
    · have hne : e.resource ≠ v.resource := by
        intro hcontra
        exact hnd.1 (hcontra ▸ List.mem_map_of_mem tokenScope.resource hv)
      unfold tokenScopes.lookup at ih ⊢
      rw [List.find?_cons]
      have : (e.resource == v.resource) = false := by
        simpa using hne
      rw [this]
      exact ih hnd.2 hv

theorem contains_of_lookup (s o : tokenScopes)
    (h : ∀ v ∈ o, ∃ w, tokenScopes.lookup s v.resource = some w ∧ v.actions ⊆ w.actions) :
    tokenScopes.contains (some s) (some o) = true := by
  unfold tokenScopes.contains
  rw [List.all_eq_true]
  intro v hv
  obtain ⟨w, hw, hsub⟩ := h v hv
  rw [hw]
  exact decide_eq_true hsub

theorem add_of_present {S : tokenScopes} {t : tokenScope}
    (hp : S.any (fun e => e.resource == t.resource) = true) :
    tokenScopes.add S t
      = S.map (fun e =>
          if e.resource = t.resource then { e with actions := e.actions ∪ t.actions } else e) := by
  unfold tokenScopes.add
  rw [if_pos hp]

theorem add_of_absent {S : tokenScopes} {t : tokenScope}
    (hp : ¬ S.any (fun e => e.resource == t.resource) = true) :
    tokenScopes.add S t = S ++ [t] := by
  unfold tokenScopes.add
  rw [if_neg hp]

theorem any_key_map_update (S : tokenScopes) (t : tokenScope) (k : String) :
    (S.map (fun e =>
        if e.resource = t.resource then { e with actions := e.actions ∪ t.actions } else e)).any
      (fun e => e.resource == k) = S.any (fun e => e.resource == k) := by
  rw [List.any_map]
  congr 1
  funext e
  simp [Function.comp, add_resource_preserved t e]

theorem any_key_add (S : tokenScopes) (t : tokenScope) (k : String) :
    (tokenScopes.add S t).any (fun e => e.resource == k)
      = (S.any (fun e => e.resource == k) || (t.resource == k)) := by
  by_cases hp : S.any (fun e => e.resource == t.resource) = true
  · rw [add_of_present hp, any_key_map_update]
    by_cases hk : t.resource = k
    · subst hk
      simp [hp]
    · have : (t.resource == k) = false := by simpa using hk
      simp [this]
  · rw [add_of_absent hp, List.any_append]
    simp

theorem not_any_all_ne {S : tokenScopes} {k : String}
    (hp : ¬ S.any (fun e => e.resource == k) = true) :
    ∀ e ∈ S, e.resource ≠ k := by
  intro e he hcontra
  exact hp (List.any_eq_true.mpr ⟨e, he, by simpa using hcontra⟩)

theorem map_update_of_no_key {S : tokenScopes} {t : tokenScope}
    (h : ∀ e ∈ S, e.resource ≠ t.resource) :
    S.map (fun e =>
        if e.resource = t.resource then { e with actions := e.actions ∪ t.actions } else e)
      = S := by
  have : ∀ e ∈ S,
      (if e.resource = t.resource then { e with actions := e.actions ∪ t.actions } else e) = e := by
    intro e he
    rw [if_neg (h e he)]
  rw [List.map_congr_left this]
  exact List.map_id S

theorem add_add_perm (S : tokenScopes) (t u : tokenScope) :
    (tokenScopes.add (tokenScopes.add S t) u).Perm (tokenScopes.add (tokenScopes.add S u) t) := by
  by_cases hres : t.resource = u.resource
  · -- same resource: the two results are equal lists
    have hpt_iff : ∀ R : tokenScopes,
        R.any (fun e => e.resource == u.resource) = R.any (fun e => e.resource == t.resource) := by
      intro R
      rw [hres]
    by_cases hpt : S.any (fun e => e.resource == t.resource) = true
    · have hpu : S.any (fun e => e.resource == u.resource) = true := by
        rw [hpt_iff]
        exact hpt
      have h1 : (tokenScopes.add S t).any (fun e => e.resource == u.resource) = true := by
        rw [any_key_add]
        simp [hpu]
      have h2 : (tokenScopes.add S u).any (fun e => e.resource == t.resource) = true := by
        rw [any_key_add]
        simp [hpt]
      rw [add_of_present hpt, add_of_present hpu,
        add_of_present (by rw [add_of_present hpt] at h1; exact h1),
        add_of_present (by rw [add_of_present hpu] at h2; exact h2),
        List.map_map, List.map_map]
      apply List.Perm.of_eq
      apply List.map_congr_left
      intro e _
      by_cases he : e.resource = t.resource
      · simp [Function.comp, he, hres, he.trans hres, Finset.union_comm t.actions u.actions]
      · have he2 : ¬ e.resource = u.resource := fun hcontra => he (hcontra.trans hres.symm)
        simp [Function.comp, he, he2, hres]
    · have hpu : ¬ S.any (fun e => e.resource == u.resource) = true := by
        rw [hpt_iff]
        exact hpt
      have hb1 : (t.resource == u.resource) = true := by
        rw [beq_iff_eq]
        exact hres
      have hb2 : (u.resource == t.resource) = true := by
        rw [beq_iff_eq]
        exact hres.symm
      have h1 : (tokenScopes.add S t).any (fun e => e.resource == u.resource) = true := by
        rw [any_key_add, hb1]
        simp
      have h2 : (tokenScopes.add S u).any (fun e => e.resource == t.resource) = true := by
        rw [any_key_add, hb2]
        simp
      rw [add_of_absent hpt, add_of_absent hpu] at *
      rw [add_of_present h1, add_of_present h2, List.map_append, List.map_append,
        map_update_of_no_key (fun e he => (not_any_all_ne hpu) e he),
        map_update_of_no_key (fun e he => (not_any_all_ne hpt) e he)]
      apply List.Perm.of_eq
      have hswap : ({ t with actions := t.actions ∪ u.actions } : tokenScope)
          = { u with actions := u.actions ∪ t.actions } := by
        rw [tokenScope.mk.injEq]
        exact ⟨hres, Finset.union_comm _ _⟩
      simp only [List.map_cons, List.map_nil]
      rw [if_pos hres, if_pos hres.symm, hswap]
  · -- distinct resources: the operations commute up to permutation
    have hne1 : (u.resource == t.resource) = false := by
      simpa using fun hcontra => hres (hcontra.symm)
    have hne2 : (t.resource == u.resource) = false := by
      simpa using hres
    by_cases hpt : S.any (fun e => e.resource == t.resource) = true <;>
      by_cases hpu : S.any (fun e => e.resource == u.resource) = true
    · -- both present: both orders give the same elementwise double update
      have h1 : (tokenScopes.add S t).any (fun e => e.resource == u.resource) = true := by
        rw [any_key_add, hne2]
        simp [hpu]
      have h2 : (tokenScopes.add S u).any (fun e => e.resource == t.resource) = true := by
        rw [any_key_add, hne1]
        simp [hpt]
      rw [add_of_present hpt, add_of_present hpu] at *
      rw [add_of_present h1, add_of_present h2, List.map_map, List.map_map]
      apply List.Perm.of_eq
      apply List.map_congr_left
      intro e _
      have hut : ¬ u.resource = t.resource := fun hh => hres hh.symm
      by_cases het : e.resource = t.resource
      · have heu : ¬ e.resource = u.resource := fun hcontra => hres (het.symm.trans hcontra)
        simp [Function.comp, het, heu, hres]
      · by_cases heu : e.resource = u.resource
        · simp [Function.comp, het, heu, hut]
        · simp [Function.comp, het, heu]
    · -- t present, u absent
      have h1 : ¬ (tokenScopes.add S t).any (fun e => e.resource == u.resource) = true := by
        rw [any_key_add, hne2]
        simp [hpu]
      have h2 : (tokenScopes.add S u).any (fun e => e.resource == t.resource) = true := by
        rw [any_key_add, hne1]
        simp [hpt]
      rw [add_of_present hpt] at h1 ⊢
      rw [add_of_absent hpu] at h2 ⊢
      rw [add_of_absent h1, add_of_present h2, List.map_append]
      apply List.Perm.of_eq
      have hfu : (if u.resource = t.resource
          then { u with actions := u.actions ∪ t.actions } else u) = u :=
        if_neg fun hh => hres hh.symm
      simp [hfu]
    · -- t absent, u present
      have h1 : (tokenScopes.add S t).any (fun e => e.resource == u.resource) = true := by
        rw [any_key_add, hne2]
        simp [hpu]
      have h2 : ¬ (tokenScopes.add S u).any (fun e => e.resource == t.resource) = true := by
        rw [any_key_add, hne1]
        simp [hpt]
      rw [add_of_absent hpt] at h1 ⊢
      rw [add_of_present hpu] at h2 ⊢
      rw [add_of_present h1, add_of_absent h2, List.map_append]
      apply List.Perm.of_eq
      have hft : (if t.resource = u.resource
          then { t with actions := t.actions ∪ u.actions } else t) = t :=
        if_neg hres
      simp [hft]
    · -- both absent: the two inserted tokens swap
      have h1 : ¬ (tokenScopes.add S t).any (fun e => e.resource == u.resource) = true := by
        rw [any_key_add, hne2]
        simp [hpu]
      have h2 : ¬ (tokenScopes.add S u).any (fun e => e.resource == t.resource) = true := by
        rw [any_key_add, hne1]
        simp [hpt]
      rw [add_of_absent h1, add_of_absent h2, add_of_absent hpt, add_of_absent hpu,
        List.append_assoc, List.append_assoc]
      exact List.Perm.append_left S (by simpa using List.Perm.swap u t [])

theorem any_perm {S₁ S₂ : tokenScopes} (h : S₁.Perm S₂) (p : tokenScope → Bool) :
    S₁.any p = S₂.any p := by
  cases hx : S₂.any p
  · rw [List.any_eq_false] at hx ⊢
    intro x hxm
    exact hx x (h.mem_iff.mp hxm)
  · rw [List.any_eq_true] at hx ⊢
    obtain ⟨x, hm, hp⟩ := hx
    exact ⟨x, h.mem_iff.mpr hm, hp⟩

theorem add_perm_congr {S₁ S₂ : tokenScopes} (h : S₁.Perm S₂) (t : tokenScope) :
    (tokenScopes.add S₁ t).Perm (tokenScopes.add S₂ t) := by
  by_cases hp : S₁.any (fun e => e.resource == t.resource) = true
  · rw [add_of_present hp, add_of_present (by rw [← any_perm h]; exact hp)]
    exact h.map _
  · rw [add_of_absent hp, add_of_absent (by rw [← any_perm h]; exact hp)]
    exact List.Perm.append_right [t] h

theorem merge_perm_congr : ∀ (l : List tokenScope) {S₁ S₂ : tokenScopes}, S₁.Perm S₂ →
    (tokenScopes.merge S₁ l).Perm (tokenScopes.merge S₂ l)
  | [], _, _, h => h
  | t :: l, _, _, h => merge_perm_congr l (add_perm_congr h t)

theorem merge_perm_pair {l₁ l₂ : List tokenScope} (h : l₁.Perm l₂) :
    ∀ {S₁ S₂ : tokenScopes}, S₁.Perm S₂ →
      (tokenScopes.merge S₁ l₁).Perm (tokenScopes.merge S₂ l₂) := by
  induction h with
  | nil =>
    intro S₁ S₂ hS
    exact hS
  | cons x h ih =>
    intro S₁ S₂ hS
    exact ih (add_perm_congr hS x)
  | swap x y l =>
    intro S₁ S₂ hS
    exact merge_perm_congr l
      ((add_add_perm S₁ y x).trans (add_perm_congr (add_perm_congr hS x) y))
  | trans h₁ h₂ ih₁ ih₂ =>
    intro S₁ S₂ hS
    exact (ih₁ hS).trans (ih₂ (List.Perm.refl _))

theorem flatten_perm {S₁ S₂ : tokenScopes} (h : S₁.Perm S₂) :
    tokenScopes.flatten S₁ = tokenScopes.flatten S₂ :=
  List.eq_of_perm_of_sorted
    ((List.perm_insertionSort strLe _).trans
      ((h.map tokenScope.String).trans (List.perm_insertionSort strLe _).symm))
    (List.sorted_insertionSort strLe _) (List.sorted_insertionSort strLe _)

theorem msortStrings_sorted (m : Multiset String) : List.Sorted strLe (msortStrings m) :=
  Quot.inductionOn m fun l => List.sorted_insertionSort strLe l

/-- Claim C6, counterexample: a set holding resources `"a"` (actions `{"z"}`) and
`"a0"` (actions `{"b"}`) flattens to `["a0:b", "a:z"]` — the code sorts the full
scope strings, and `'0' < ':'` puts `"a0:b"` first — whereas a sequence sorted
lexicographically by resource would be `["a:z", "a0:b"]`, since `"a" < "a0"`. -/
theorem C6_counterexample :
    tokenScopes.flatten [⟨"a", {"z"}⟩, ⟨"a0", {"b"}⟩] = ["a0:b", "a:z"] ∧
    tokenScopes.flatten [⟨"a", {"z"}⟩, ⟨"a0", {"b"}⟩] ≠ ["a:z", "a0:b"] := by decide

/-- Claim C6 (amended): `flatten` returns the per-resource scope strings
`resource:action1,action2` with actions sorted lexicographically within each
resource, the whole sequence sorted lexicographically by the full scope string
(not by resource alone); the output is deterministic: it is invariant under the
map's iteration order, and building the set by inserting the same tokens in any
order yields identical `flatten` output. -/
theorem C6_flatten_deterministic (S S₁ S₂ : tokenScopes) (l₁ l₂ : List tokenScope)
    (ts : tokenScope) (hperm : S₁.Perm S₂) (hins : l₁.Perm l₂) :
    (tokenScopes.flatten S).Sorted strLe ∧
    (tokenScopes.flatten S).Perm (S.map tokenScope.String) ∧
    List.Sorted strLe (sortedKeys ts.actions) ∧
    tokenScopes.flatten S₁ = tokenScopes.flatten S₂ ∧
    tokenScopes.flatten (tokenScopes.merge [] l₁) = tokenScopes.flatten (tokenScopes.merge [] l₂) :=
  ⟨List.sorted_insertionSort strLe _, List.perm_insertionSort strLe _,
   msortStrings_sorted _, flatten_perm hperm,
   flatten_perm (merge_perm_pair hins (List.Perm.refl []))⟩

/-- Witness for C6_flatten_deterministic at concrete sets and token lists. -/
theorem C6_flatten_deterministic_witness :
    (tokenScopes.flatten [⟨"b", {"y", "x"}⟩, ⟨"a", {"p"}⟩]).Sorted strLe ∧
    (tokenScopes.flatten [⟨"b", {"y", "x"}⟩, ⟨"a", {"p"}⟩]).Perm
      ([⟨"b", {"y", "x"}⟩, ⟨"a", {"p"}⟩].map tokenScope.String) ∧
    List.Sorted strLe (sortedKeys (tokenScope.mk "r" {"b", "a"}).actions) ∧
    tokenScopes.flatten [⟨"b", {"y", "x"}⟩, ⟨"a", {"p"}⟩]
      = tokenScopes.flatten [⟨"a", {"p"}⟩, ⟨"b", {"y", "x"}⟩] ∧
    tokenScopes.flatten
        (tokenScopes.merge [] [⟨"a", {"x"}⟩, ⟨"b", {"q"}⟩, ⟨"a", {"y"}⟩])
      = tokenScopes.flatten
        (tokenScopes.merge [] [⟨"b", {"q"}⟩, ⟨"a", {"y"}⟩, ⟨"a", {"x"}⟩]) :=
  C6_flatten_deterministic [⟨"b", {"y", "x"}⟩, ⟨"a", {"p"}⟩]
    [⟨"b", {"y", "x"}⟩, ⟨"a", {"p"}⟩] [⟨"a", {"p"}⟩, ⟨"b", {"y", "x"}⟩]
    [⟨"a", {"x"}⟩, ⟨"b", {"q"}⟩, ⟨"a", {"y"}⟩] [⟨"b", {"q"}⟩, ⟨"a", {"y"}⟩, ⟨"a", {"x"}⟩]
    ⟨"r", {"b", "a"}⟩ (by decide) (by decide)

/-- Claim C8: after merging `B` into `A`, the result contains `B` and contains
the value `A` held before the merge, in the sense of the `contains` operation
(every resource present with a superset of its actions).  The receiver `A` is a
Go map, so its stored tokens have pairwise distinct resources. -/
theorem C8_merge_contains (A B : tokenScopes)
    (hA : (A.map tokenScope.resource).Nodup) :
    tokenScopes.contains (some (tokenScopes.merge A B)) (some B) = true ∧
    tokenScopes.contains (some (tokenScopes.merge A B)) (some A) = true := by
  constructor
  · exact contains_of_lookup _ _ fun v hv => lookup_merge_of_mem B A hv
  · exact contains_of_lookup _ _ fun v hv =>
      lookup_merge_superset B A (lookup_of_mem_nodup A hA hv)

/-- Witness for C8_merge_contains at concrete sets with an overlapping resource. -/
theorem C8_merge_contains_witness :
    tokenScopes.contains
      (some (tokenScopes.merge [⟨"a", {"x"}⟩] [⟨"a", {"y"}⟩, ⟨"b", {"z"}⟩]))
      (some [⟨"a", {"y"}⟩, ⟨"b", {"z"}⟩]) = true ∧
    tokenScopes.contains
      (some (tokenScopes.merge [⟨"a", {"x"}⟩] [⟨"a", {"y"}⟩, ⟨"b", {"z"}⟩]))
      (some [⟨"a", {"x"}⟩]) = true :=
  C8_merge_contains [⟨"a", {"x"}⟩] [⟨"a", {"y"}⟩, ⟨"b", {"z"}⟩] (by decide)

theorem data_mk (l : List Char) : (⟨l⟩ : String).data = l := rfl

theorem mem_intersperse {α : Type _} {sep a : α} :
    ∀ {l : List α}, a ∈ l.intersperse sep → a = sep ∨ a ∈ l
  | [], h => by simp at h
  | [x], h => by simpa using Or.inr (by simpa using h)
  | x :: y :: rest, h => by
    rw [List.intersperse_cons₂] at h
    rcases List.mem_cons.mp h with h | h
    · exact Or.inr (by simp [h])
    · rcases List.mem_cons.mp h with h | h
      · exact Or.inl h
      · rcases mem_intersperse h with h | h
        · exact Or.inl h
        · exact Or.inr (List.mem_cons_of_mem x h)

theorem mem_intercalate {α : Type _} {sep c : α} {ls : List (List α)}
    (hc : c ∈ List.intercalate [sep] ls) : c = sep ∨ ∃ l ∈ ls, c ∈ l := by
  unfold List.intercalate at hc
  rw [List.mem_flatten] at hc
  obtain ⟨l, hl, hcl⟩ := hc
  rcases mem_intersperse hl with h | h
  · subst h
    exact Or.inl (by simpa using hcl)
  · exact Or.inr ⟨l, h, hcl⟩

theorem mem_msortStrings {m : Multiset String} {a : String} :
    a ∈ msortStrings m ↔ a ∈ m := by
  induction m using Quot.inductionOn with
  | _ l => exact ((List.perm_insertionSort strLe l).mem_iff).trans Multiset.mem_coe.symm

theorem mem_sortedKeys {s : Finset String} {a : String} : a ∈ sortedKeys s ↔ a ∈ s :=
  mem_msortStrings.trans Finset.mem_val

theorem sortedKeys_toFinset (s : Finset String) : (sortedKeys s).toFinset = s := by
  ext a
  rw [List.mem_toFinset, mem_sortedKeys]

theorem sortedKeys_ne_nil {s : Finset String} (h : s ≠ ∅) : sortedKeys s ≠ [] := by
  obtain ⟨a, ha⟩ := Finset.nonempty_iff_ne_empty.mpr h
  intro hcontra
  have hmem := mem_sortedKeys.mpr ha
  rw [hcontra] at hmem
  exact List.not_mem_nil a hmem

/-- Claim C7, counterexample: an action containing a comma does not round-trip —
`String` of the token with resource `"r"` and single action `"a,b"` prints as
`"r:a,b"`, which parses back to the two actions `{"a", "b"}`. -/
theorem C7_counterexample :
    tokenScope.String ⟨"r", {"a,b"}⟩ = "r:a,b" ∧
    parseTokenScope "r:a,b" = .ok ⟨"r", {"a", "b"}⟩ ∧
    ({"a", "b"} : Finset String) ≠ {"a,b"} := by decide

/-- Claim C7 (amended): `parseTokenScope` applied to `ts.String` reconstructs the
token with the same resource and the same action set, for every token with a
non-empty action set none of whose actions contains a colon or a comma.  (With a
colon or comma inside an action, the last-colon split or the comma split lands
inside an action and the round-trip fails.) -/
theorem C7_roundTrip (ts : tokenScope) (hne : ts.actions ≠ ∅)
    (hchars : ∀ a ∈ ts.actions, ':' ∉ a.data ∧ ',' ∉ a.data) :
    parseTokenScope (tokenScope.String ts) = .ok ts := by
  obtain ⟨res, acts⟩ := ts
  simp only [tokenScope.String] at *
  set keys := sortedKeys acts with hkeys
  set J := List.intercalate [','] (keys.map String.data) with hJ
  have hJcolon : ':' ∉ J := by
    intro hc
    rcases mem_intercalate hc with h | ⟨l, hl, hcl⟩
    · exact absurd h (by decide)
    · obtain ⟨a, ha, rfl⟩ := List.mem_map.mp hl
      exact (hchars a (mem_sortedKeys.mp ha)).1 hcl
  unfold parseTokenScope
  rw [data_mk]
  have hrev : (res.data ++ ':' :: J).reverse = J.reverse ++ ':' :: res.data.reverse := by
    rw [List.reverse_append, List.reverse_cons, List.append_assoc]
    rfl
  have hfind : (res.data ++ ':' :: J).reverse.findIdx? (· = ':') = some J.length := by
    rw [hrev, List.findIdx?_append]
    have h1 : J.reverse.findIdx? (fun c => decide (c = ':')) = none := by
      rw [List.findIdx?_eq_none_iff]
      intro x hx
      have hxne : x ≠ ':' := fun hh => hJcolon (hh ▸ List.mem_reverse.mp hx)
      simpa using hxne
    have h2 : (':' :: res.data.reverse).findIdx? (fun c => decide (c = ':')) = some 0 := by
      rw [List.findIdx?_cons]
      simp
    rw [h1, h2]
    simp [List.length_reverse]
  rw [hfind]
  dsimp only
  have hsep : (res.data ++ ':' :: J).length - 1 - J.length = res.data.length := by
    rw [List.length_append, List.length_cons]
    omega
  rw [hsep]
  have htake : (res.data ++ ':' :: J).take res.data.length = res.data :=
    List.take_left res.data (':' :: J)
  have hdrop : (res.data ++ ':' :: J).drop (res.data.length + 1) = J := by
    have hassoc : res.data ++ ':' :: J = (res.data ++ [':']) ++ J := by
      simp
    have hlen2 : (res.data ++ [':']).length = res.data.length + 1 := by
      simp
    rw [hassoc, ← hlen2, List.drop_left]
  rw [htake, hdrop]
  have hsplit : J.splitOn ',' = keys.map String.data := by
    rw [hJ]
    refine List.splitOn_intercalate _ ',' ?_ ?_
    · intro l hl
      obtain ⟨a, ha, rfl⟩ := List.mem_map.mp hl
      exact (hchars a (mem_sortedKeys.mp ha)).2
    · intro hcontra
      exact sortedKeys_ne_nil hne (List.map_eq_nil_iff.mp hcontra)
  rw [hsplit, List.map_map]
  have hback : keys.map ((fun l => (⟨l⟩ : String)) ∘ String.data) = keys := by
    have : ∀ a ∈ keys, ((fun l => (⟨l⟩ : String)) ∘ String.data) a = a := by
      intro a _
      exact string_eta a
    rw [List.map_congr_left this]
    exact List.map_id keys
  rw [hback, string_eta, hkeys, sortedKeys_toFinset]

/-- Witness for C7_roundTrip at a token with two actions and a colon inside the
resource. -/
theorem C7_roundTrip_witness :
    parseTokenScope (tokenScope.String ⟨"repository:foo/bar", {"pull", "push"}⟩)
      = .ok ⟨"repository:foo/bar", {"pull", "push"}⟩ :=
  C7_roundTrip ⟨"repository:foo/bar", {"pull", "push"}⟩ (by decide) (by decide)

/-- Claim C10: on a locator `host ++ "/" ++ path` whose host is made of
characters net/url accepts in a host name (excluding, within the model's
domain, slash, colon, at, hash, question mark, percent, brackets and control
characters) and whose path contains no hash, question mark, percent or control
character — locators on which Go's `url.Parse` succeeds and the model agrees
with it exactly — `repositoryScope` succeeds with resource
`"repository:" ++ path` (the path without its leading slash) and actions
`{"pull"}`, plus `"push"` exactly when the push flag is set.  Outside this
domain the embedded `repositoryScope` can return an error, as Go does for a
host with a space or a locator with a control character. -/
theorem C10_repositoryScope (host path : String) (p : Bool)
    (hhost : ∀ c ∈ host.data, hostCharOK c = true ∧ isCtlChar c = false ∧
      c ≠ '/' ∧ c ≠ ':' ∧ c ≠ '@' ∧ c ≠ '#' ∧ c ≠ '?' ∧ c ≠ '%' ∧ c ≠ '[' ∧ c ≠ ']')
    (hpath : ∀ c ∈ path.data, isCtlChar c = false ∧ c ≠ '#' ∧ c ≠ '?' ∧ c ≠ '%') :
    repositoryScope (host ++ "/" ++ path) p =
      .ok { resource := "repository:" ++ path,
            actions := if p then {"pull", "push"} else {"pull"} } := by
  have hdata : (host ++ "/" ++ path).data = host.data ++ '/' :: path.data := by
    simp [String.data_append]
  have hctl : (host.data ++ '/' :: path.data).any isCtlChar = false := by
    rw [List.any_eq_false]
    intro c hc
    rcases List.mem_append.mp hc with h | h
    · simp [(hhost c h).2.1]
    · rcases List.mem_cons.mp h with h | h
      · subst h
        decide
      · simp [(hpath c h).1]
  have hpct : (host.data ++ '/' :: path.data).any (· == '%') = false := by
    rw [List.any_eq_false]
    intro c hc
    rcases List.mem_append.mp hc with h | h
    · obtain ⟨-, -, -, -, -, -, -, hp2, -, -⟩ := hhost c h
      simpa using hp2
    · rcases List.mem_cons.mp h with h | h
      · subst h
        decide
      · obtain ⟨-, -, -, hp2⟩ := hpath c h
        simpa using hp2
  have hnohash : (host.data ++ '/' :: path.data).takeWhile (· ≠ '#')
      = host.data ++ '/' :: path.data := by
    rw [List.takeWhile_eq_self_iff]
    intro c hc
    rcases List.mem_append.mp hc with h | h
    · obtain ⟨-, -, -, -, -, hh, -, -, -, -⟩ := hhost c h
      simpa using hh
    · rcases List.mem_cons.mp h with h | h
      · subst h
        decide
      · obtain ⟨-, hh, -, -⟩ := hpath c h
        simpa using hh
  have hnoq : (host.data ++ '/' :: path.data).takeWhile (· ≠ '?')
      = host.data ++ '/' :: path.data := by
    rw [List.takeWhile_eq_self_iff]
    intro c hc
    rcases List.mem_append.mp hc with h | h
    · obtain ⟨-, -, -, -, -, -, hh, -, -, -⟩ := hhost c h
      simpa using hh
    · rcases List.mem_cons.mp h with h | h
      · subst h
        decide
      · obtain ⟨-, -, hh, -⟩ := hpath c h
        simpa using hh
  have hauth : (host.data ++ '/' :: path.data).takeWhile (· ≠ '/') = host.data :=
    takeWhile_append_stop host.data '/' path.data
      (fun c hc => by
        obtain ⟨-, -, hs, -⟩ := hhost c hc
        simpa using hs)
      (by decide)
  have hdrop : (host.data ++ '/' :: path.data).dropWhile (· ≠ '/') = '/' :: path.data := by
    rw [dropWhile_append_of_all host.data ('/' :: path.data)
      (fun c hc => by
        obtain ⟨-, -, hs, -⟩ := hhost c hc
        simpa using hs)]
    simp [List.dropWhile_cons]
  have hhostok : goAuthorityOK host.data = true := by
    have hat : lastIndexOf '@' host.data = none := by
      unfold lastIndexOf
      rw [List.findIdx?_eq_none_iff.mpr ?_]
      · rfl
      · intro x hx
        obtain ⟨-, -, -, -, ha, -⟩ := hhost x (List.mem_reverse.mp hx)
        simpa using ha
    have hcol : lastIndexOf ':' host.data = none := by
      unfold lastIndexOf
      rw [List.findIdx?_eq_none_iff.mpr ?_]
      · rfl
      · intro x hx
        obtain ⟨-, -, -, hcn, -⟩ := hhost x (List.mem_reverse.mp hx)
        simpa using hcn
    have hallok : host.data.all hostCharOK = true := by
      rw [List.all_eq_true]
      intro c hc
      exact (hhost c hc).1
    have hhead : (host.data.head? == some '[') = false := by
      cases hd : host.data with
      | nil => rfl
      | cons a l =>
        have hmem : a ∈ host.data := by
          rw [hd]
          exact List.mem_cons_self a l
        obtain ⟨-, -, -, -, -, -, -, -, hlb, -⟩ := hhost a hmem
        simp [hlb]
    unfold goAuthorityOK goHostOK
    rw [hat, hcol, hhead, hallok]
    rfl
  have hurl : goURLPath (host ++ "/" ++ path) = .ok ('/' :: path.data) := by
    unfold goURLPath
    rw [hdata]
    rw [if_neg (by simp [hctl]), if_neg (by simp [hpct])]
    dsimp only
    rw [hnohash, hnoq, hauth, if_pos hhostok, hdrop]
  unfold repositoryScope
  rw [hurl]
  dsimp only
  rw [show trimLeadingSlash ('/' :: path.data) = path.data from rfl, string_eta]
  cases p <;> simp [Finset.pair_comm]

/-- Claim C1: whenever the transport reports the already-exists condition as the
cause of a failure at sink acquisition, payload write or commit, `pushPayload`
returns success (`none`) — this holds at every push site, all of which go
through `pushPayload`; and when both the config-blob push and the config-manifest
push succeed this way, `pushBundleConfig` returns the originally computed
manifest descriptor of the first representation, for every fallback chain and
either value of the fallback flag (no fallback attempted). -/
theorem C1_alreadyExists_success :
    (∀ (t : Transport) (ref : String) (d : Descriptor) (p : String) (e : GoError),
      e.causeIsAlreadyExists = true →
      (t.attempt ref d p).pusherErr = none →
      (((t.attempt ref d p).pushErr = some e → pushPayload t ref d p = none) ∧
       ((t.attempt ref d p).pushErr = none →
         (((t.attempt ref d p).writeErr = some e → pushPayload t ref d p = none) ∧
          ((t.attempt ref d p).writeErr = none →
            (t.attempt ref d p).commitErr = some e → pushPayload t ref d p = none))))) ∧
    (∀ (t : Transport) (ref : String) (c : PreparedBundleConfig) (allowFallbacks : Bool),
      pushPayload t ref c.head.configBlobDescriptor c.head.configBlob = none →
      pushPayload t ref c.head.manifestDescriptor c.head.manifest = none →
      pushBundleConfig t ref c allowFallbacks = .ok c.head.manifestDescriptor) := by
  constructor
  · intro t ref d p e he hres
    refine ⟨fun hpush => ?_, fun hpush => ⟨fun hwrite => ?_, fun hwrite hcommit => ?_⟩⟩
    · simp [pushPayload, absorbAlreadyExists, hres, hpush, he]
    · simp [pushPayload, absorbAlreadyExists, hres, hpush, hwrite, he]
    · simp [pushPayload, absorbAlreadyExists, hres, hpush, hwrite, hcommit, he]
  · intro t ref c allowFallbacks hblob hman
    cases c with
    | last r =>
      simp only [PreparedBundleConfig.head] at hblob hman
      simp [pushBundleConfig, hblob, hman, PreparedBundleConfig.head]
    | cons r fb =>
      simp only [PreparedBundleConfig.head] at hblob hman
      simp [pushBundleConfig, hblob, hman, PreparedBundleConfig.head]

/-- Witness for C1_alreadyExists_success: a transport answering already-exists at
sink acquisition for the blob and at commit for the manifest. -/
theorem C1_alreadyExists_success_witness :
    pushPayload
      (Transport.mk fun _ _ p =>
        if p = "blob" then ⟨none, some ⟨true, "exists"⟩, none, none⟩
        else ⟨none, none, none, some ⟨true, "exists"⟩⟩)
      "ref" ⟨"bd", "bm", 1⟩ "blob" = none ∧
    pushBundleConfig
      (Transport.mk fun _ _ p =>
        if p = "blob" then ⟨none, some ⟨true, "exists"⟩, none, none⟩
        else ⟨none, none, none, some ⟨true, "exists"⟩⟩)
      "ref"
      (.cons ⟨"blob", ⟨"bd", "bm", 1⟩, "man", ⟨"md", "mm", 2⟩⟩
        (.last ⟨"blob2", ⟨"bd2", "bm2", 3⟩, "man2", ⟨"md2", "mm2", 4⟩⟩))
      true = .ok ⟨"md", "mm", 2⟩ := by
  constructor
  · exact ((C1_alreadyExists_success.1
      (Transport.mk fun _ _ p =>
        if p = "blob" then ⟨none, some ⟨true, "exists"⟩, none, none⟩
        else ⟨none, none, none, some ⟨true, "exists"⟩⟩)
      "ref" ⟨"bd", "bm", 1⟩ "blob" ⟨true, "exists"⟩ rfl (by decide)).1 (by decide))
  · exact C1_alreadyExists_success.2
      (Transport.mk fun _ _ p =>
        if p = "blob" then ⟨none, some ⟨true, "exists"⟩, none, none⟩
        else ⟨none, none, none, some ⟨true, "exists"⟩⟩)
      "ref"
      (.cons ⟨"blob", ⟨"bd", "bm", 1⟩, "man", ⟨"md", "mm", 2⟩⟩
        (.last ⟨"blob2", ⟨"bd2", "bm2", 3⟩, "man2", ⟨"md2", "mm2", 4⟩⟩))
      true (by decide) (by decide)

/-- Claim C3: in `pushBundleConfig`, a non-already-exists failure of the blob or
manifest push falls back to the next representation exactly when a fallback
exists and fallbacks are allowed (the whole two-step sequence is retried on the
fallback chain), and is propagated otherwise; a successful call returns the
manifest descriptor of a representation of the chain both of whose pushes
succeeded. -/
theorem C3_config_fallback :
    (∀ (t : Transport) (ref : String) (r : BundleConfigRepr) (fb : PreparedBundleConfig)
        (e : GoError),
      pushPayload t ref r.configBlobDescriptor r.configBlob = some e →
      pushBundleConfig t ref (.cons r fb) true = pushBundleConfig t ref fb true) ∧
    (∀ (t : Transport) (ref : String) (r : BundleConfigRepr) (fb : PreparedBundleConfig)
        (e : GoError),
      pushPayload t ref r.configBlobDescriptor r.configBlob = none →
      pushPayload t ref r.manifestDescriptor r.manifest = some e →
      pushBundleConfig t ref (.cons r fb) true = pushBundleConfig t ref fb true) ∧
    (∀ (t : Transport) (ref : String) (r : BundleConfigRepr) (e : GoError),
      pushPayload t ref r.configBlobDescriptor r.configBlob = some e →
      (∀ allowFallbacks, pushBundleConfig t ref (.last r) allowFallbacks = .error e) ∧
      (∀ fb, pushBundleConfig t ref (.cons r fb) false = .error e)) ∧
    (∀ (t : Transport) (ref : String) (r : BundleConfigRepr) (e : GoError),
      pushPayload t ref r.configBlobDescriptor r.configBlob = none →
      pushPayload t ref r.manifestDescriptor r.manifest = some e →
      (∀ allowFallbacks, pushBundleConfig t ref (.last r) allowFallbacks = .error e) ∧
      (∀ fb, pushBundleConfig t ref (.cons r fb) false = .error e)) ∧
    (∀ (t : Transport) (ref : String) (c : PreparedBundleConfig) (allowFallbacks : Bool)
        (d : Descriptor),
      pushBundleConfig t ref c allowFallbacks = .ok d →
      ∃ r ∈ c.reprs,
        pushPayload t ref r.configBlobDescriptor r.configBlob = none ∧
        pushPayload t ref r.manifestDescriptor r.manifest = none ∧
        r.manifestDescriptor = d) := by
  refine ⟨?_, ?_, ?_, ?_, ?_⟩
  · intro t ref r fb e hblob
    simp [pushBundleConfig, hblob]
  · intro t ref r fb e hblob hman
    simp [pushBundleConfig, hblob, hman]
  · intro t ref r e hblob
    exact ⟨fun allowFallbacks => by simp [pushBundleConfig, hblob],
      fun fb => by simp [pushBundleConfig, hblob]⟩
  · intro t ref r e hblob hman
    exact ⟨fun allowFallbacks => by simp [pushBundleConfig, hblob, hman],
      fun fb => by simp [pushBundleConfig, hblob, hman]⟩
  · intro t ref c allowFallbacks d h
    induction c with
    | last r =>
      simp only [pushBundleConfig] at h
      cases hb : pushPayload t ref r.configBlobDescriptor r.configBlob with
      | some e =>
        rw [hb] at h
        exact absurd h (by simp)
      | none =>
        rw [hb] at h
        cases hm : pushPayload t ref r.manifestDescriptor r.manifest with
        | some e =>
          rw [hm] at h
          exact absurd h (by simp)
        | none =>
          rw [hm] at h
          simp only [Except.ok.injEq] at h
          exact ⟨r, by simp [PreparedBundleConfig.reprs], hb, hm, h⟩
    | cons r fb ih =>
      simp only [pushBundleConfig] at h
      cases hb : pushPayload t ref r.configBlobDescriptor r.configBlob with
      | some e =>
        rw [hb] at h
        cases allowFallbacks with
        | false => exact absurd h (by simp)
        | true =>
          simp only [if_true] at h
          obtain ⟨r2, hr2, hprops⟩ := ih h
          exact ⟨r2, by simp [PreparedBundleConfig.reprs, hr2], hprops⟩
      | none =>
        rw [hb] at h
        cases hm : pushPayload t ref r.manifestDescriptor r.manifest with
        | some e =>
          rw [hm] at h
          cases allowFallbacks with
          | false => exact absurd h (by simp)
          | true =>
            simp only [if_true] at h
            obtain ⟨r2, hr2, hprops⟩ := ih h
            exact ⟨r2, by simp [PreparedBundleConfig.reprs, hr2], hprops⟩
        | none =>
          rw [hm] at h
          simp only [Except.ok.injEq] at h
          exact ⟨r, by simp [PreparedBundleConfig.reprs], hb, hm, h⟩

/-- Witness for C3_config_fallback: a transport rejecting the first blob and
accepting the fallback representation. -/
theorem C3_config_fallback_witness :
    pushBundleConfig
      (Transport.mk fun _ _ p =>
        if p = "blob" then ⟨none, some ⟨false, "rejected"⟩, none, none⟩
        else ⟨none, none, none, none⟩)
      "ref"
      (.cons ⟨"blob", ⟨"bd", "bm", 1⟩, "man", ⟨"md", "mm", 2⟩⟩
        (.last ⟨"blob2", ⟨"bd2", "bm2", 3⟩, "man2", ⟨"md2", "mm2", 4⟩⟩))
      true
      = pushBundleConfig
        (Transport.mk fun _ _ p =>
          if p = "blob" then ⟨none, some ⟨false, "rejected"⟩, none, none⟩
          else ⟨none, none, none, none⟩)
        "ref" (.last ⟨"blob2", ⟨"bd2", "bm2", 3⟩, "man2", ⟨"md2", "mm2", 4⟩⟩) true ∧
    pushBundleConfig
      (Transport.mk fun _ _ p =>
        if p = "blob" then ⟨none, some ⟨false, "rejected"⟩, none, none⟩
        else ⟨none, none, none, none⟩)
      "ref" (.cons ⟨"blob", ⟨"bd", "bm", 1⟩, "man", ⟨"md", "mm", 2⟩⟩
        (.last ⟨"blob2", ⟨"bd2", "bm2", 3⟩, "man2", ⟨"md2", "mm2", 4⟩⟩))
      false = .error ⟨false, "rejected"⟩ ∧
    (∃ r ∈ (PreparedBundleConfig.cons ⟨"blob", ⟨"bd", "bm", 1⟩, "man", ⟨"md", "mm", 2⟩⟩
        (.last ⟨"blob2", ⟨"bd2", "bm2", 3⟩, "man2", ⟨"md2", "mm2", 4⟩⟩)).reprs,
      pushPayload
        (Transport.mk fun _ _ p =>
          if p = "blob" then ⟨none, some ⟨false, "rejected"⟩, none, none⟩
          else ⟨none, none, none, none⟩) "ref" r.configBlobDescriptor r.configBlob = none ∧
      pushPayload
        (Transport.mk fun _ _ p =>
          if p = "blob" then ⟨none, some ⟨false, "rejected"⟩, none, none⟩
          else ⟨none, none, none, none⟩) "ref" r.manifestDescriptor r.manifest = none ∧
      r.manifestDescriptor = ⟨"md2", "mm2", 4⟩) := by
  refine ⟨?_, ?_, ?_⟩
  · exact C3_config_fallback.1
      (Transport.mk fun _ _ p =>
        if p = "blob" then ⟨none, some ⟨false, "rejected"⟩, none, none⟩
        else ⟨none, none, none, none⟩)
      "ref" ⟨"blob", ⟨"bd", "bm", 1⟩, "man", ⟨"md", "mm", 2⟩⟩
      (.last ⟨"blob2", ⟨"bd2", "bm2", 3⟩, "man2", ⟨"md2", "mm2", 4⟩⟩)
      ⟨false, "rejected"⟩ (by decide)
  · exact ((C3_config_fallback.2.2.1
      (Transport.mk fun _ _ p =>
        if p = "blob" then ⟨none, some ⟨false, "rejected"⟩, none, none⟩
        else ⟨none, none, none, none⟩)
      "ref" ⟨"blob", ⟨"bd", "bm", 1⟩, "man", ⟨"md", "mm", 2⟩⟩
      ⟨false, "rejected"⟩ (by decide)).2
      (.last ⟨"blob2", ⟨"bd2", "bm2", 3⟩, "man2", ⟨"md2", "mm2", 4⟩⟩))
  · exact C3_config_fallback.2.2.2.2
      (Transport.mk fun _ _ p =>
        if p = "blob" then ⟨none, some ⟨false, "rejected"⟩, none, none⟩
        else ⟨none, none, none, none⟩)
      "ref"
      (.cons ⟨"blob", ⟨"bd", "bm", 1⟩, "man", ⟨"md", "mm", 2⟩⟩
        (.last ⟨"blob2", ⟨"bd2", "bm2", 3⟩, "man2", ⟨"md2", "mm2", 4⟩⟩))
      true ⟨"md2", "mm2", 4⟩ (by decide)

/-- Claim C2: when the OCI-index push fails with a non-absorbed error: with
fallbacks not permitted, `Push` aborts with that error and no manifest-list
attempt occurs; with fallbacks permitted, the same index content is rebuilt
exactly once as a Docker schema-2 manifest-list (same referenced descriptors,
schema version set to 2, the Docker manifest-list media type, descriptor
recomputed from the re-serialized payload) and pushed exactly once more, `Push`
returning that retry's error if it fails and the manifest-list descriptor if it
succeeds. -/
theorem C2_index_fallback
    (env : ConverterEnv) (t : Transport) (refName refFull : String)
    (options : List ManifestOption) (bc : PreparedBundleConfig) (cd d1 : Descriptor)
    (p1 : String) (e : GoError) (ix : OCIIndex) (p2 : String)
    (hprep : env.prepareForPush = .ok bc)
    (hconv : convertIndexAndApplyOptions env cd options = .ok ix)
    (hmarshal : env.marshalWrapper
      ⟨{ ix with schemaVersion := 2 }, MediaTypeDockerSchema2ManifestList⟩ = .ok p2)
    (hindex : prepareIndex env cd options = .ok (d1, p1))
    (hpush1 : pushPayload t refFull d1 p1 = some e) :
    (pushBundleConfig t refName bc false = .ok cd →
      Push env t refName refFull false options = .error e) ∧
    (pushBundleConfig t refName bc true = .ok cd →
      prepareIndexNonOCI env cd options =
        .ok (⟨env.digestFromBytes p2, MediaTypeDockerSchema2ManifestList, (p2.length : Int)⟩, p2) ∧
      Push env t refName refFull true options =
        (match pushPayload t refFull
            ⟨env.digestFromBytes p2, MediaTypeDockerSchema2ManifestList, (p2.length : Int)⟩ p2 with
         | some e2 => .error e2
         | none =>
           .ok (⟨env.digestFromBytes p2, MediaTypeDockerSchema2ManifestList,
             (p2.length : Int)⟩ : Descriptor))) := by
  have hnonoci : prepareIndexNonOCI env cd options =
      .ok (⟨env.digestFromBytes p2, MediaTypeDockerSchema2ManifestList, (p2.length : Int)⟩, p2) := by
    unfold prepareIndexNonOCI
    rw [hconv]
    dsimp only
    rw [hmarshal]
  constructor
  · intro hconf
    unfold Push
    rw [hprep]
    dsimp only
    rw [hconf]
    dsimp only
    rw [hindex]
    dsimp only
    rw [hpush1]
    dsimp only
    rw [if_pos (show (!false) = true from rfl)]
  · intro hconf
    refine ⟨hnonoci, ?_⟩
    unfold Push
    rw [hprep]
    dsimp only
    rw [hconf]
    dsimp only
    rw [hindex]
    dsimp only
    rw [hpush1]
    dsimp only
    rw [if_neg (show ¬ (!true) = true by decide), hnonoci]

/-- Witness for C2_index_fallback: a transport rejecting the OCI media type and
accepting the manifest-list retry, for both values of the fallback flag. -/
theorem C2_index_fallback_witness :
    Push
      ⟨.ok (.last ⟨"blob", ⟨"bd", "bm", 1⟩, "man", ⟨"md", "mm", 2⟩⟩),
        fun d => .ok ⟨3, [d]⟩, fun _ => .ok "IX", fun _ => .ok "ML", fun s => s ++ "!"⟩
      (Transport.mk fun _ d _ =>
        if d.mediaType = MediaTypeImageIndex then ⟨none, some ⟨false, "no oci"⟩, none, none⟩
        else ⟨none, none, none, none⟩)
      "rn" "rf" false [] = .error ⟨false, "no oci"⟩ ∧
    prepareIndexNonOCI
      ⟨.ok (.last ⟨"blob", ⟨"bd", "bm", 1⟩, "man", ⟨"md", "mm", 2⟩⟩),
        fun d => .ok ⟨3, [d]⟩, fun _ => .ok "IX", fun _ => .ok "ML", fun s => s ++ "!"⟩
      ⟨"md", "mm", 2⟩ []
      = .ok (⟨"ML!", MediaTypeDockerSchema2ManifestList, 2⟩, "ML") ∧
    Push
      ⟨.ok (.last ⟨"blob", ⟨"bd", "bm", 1⟩, "man", ⟨"md", "mm", 2⟩⟩),
        fun d => .ok ⟨3, [d]⟩, fun _ => .ok "IX", fun _ => .ok "ML", fun s => s ++ "!"⟩
      (Transport.mk fun _ d _ =>
        if d.mediaType = MediaTypeImageIndex then ⟨none, some ⟨false, "no oci"⟩, none, none⟩
        else ⟨none, none, none, none⟩)
      "rn" "rf" true [] = .ok ⟨"ML!", MediaTypeDockerSchema2ManifestList, 2⟩ := by
  have h := C2_index_fallback
    ⟨.ok (.last ⟨"blob", ⟨"bd", "bm", 1⟩, "man", ⟨"md", "mm", 2⟩⟩),
      fun d => .ok ⟨3, [d]⟩, fun _ => .ok "IX", fun _ => .ok "ML", fun s => s ++ "!"⟩
    (Transport.mk fun _ d _ =>
      if d.mediaType = MediaTypeImageIndex then ⟨none, some ⟨false, "no oci"⟩, none, none⟩
      else ⟨none, none, none, none⟩)
    "rn" "rf" []
    (.last ⟨"blob", ⟨"bd", "bm", 1⟩, "man", ⟨"md", "mm", 2⟩⟩)
    ⟨"md", "mm", 2⟩ ⟨"IX!", MediaTypeImageIndex, 2⟩ "IX" ⟨false, "no oci"⟩
    ⟨3, [⟨"md", "mm", 2⟩]⟩ "ML"
    rfl (by decide) (by decide) (by decide) (by decide)
  refine ⟨h.1 (by decide), (h.2 (by decide)).1.trans (by decide),
    ((h.2 (by decide)).2).trans (by decide)⟩

/-- Witness for C10_repositoryScope at the locator of the spec's scenario, for
both values of the push flag. -/
theorem C10_repositoryScope_witness :
    repositoryScope ("registry.example.com" ++ "/" ++ "org/name") false =
      .ok ⟨"repository:org/name", {"pull"}⟩ ∧
    repositoryScope ("registry.example.com" ++ "/" ++ "org/name") true =
      .ok ⟨"repository:org/name", {"pull", "push"}⟩ := by
  constructor
  · exact C10_repositoryScope "registry.example.com" "org/name" false (by decide) (by decide)
  · exact C10_repositoryScope "registry.example.com" "org/name" true (by decide) (by decide)

theorem heapGet_append_left (h tail : Heap) (r : Nat) (hr : r < h.length) :
    Heap.get (h ++ tail) r = Heap.get h r := by
  unfold Heap.get
  exact List.getD_append h tail ∅ r hr

theorem heapGet_append_self (h : Heap) (a : Finset String) :
    Heap.get (h ++ [a]) h.length = a := by
  unfold Heap.get
  rw [List.getD_append_right h [a] ∅ h.length (le_refl _)]
  simp

theorem heapGet_set_ne (h : Heap) (r0 r : Nat) (a : Finset String) (hne : r0 ≠ r) :
    Heap.get (Heap.setCell h r0 a) r = Heap.get h r := by
  unfold Heap.get Heap.setCell
  rw [List.getD_eq_getElem?_getD, List.getD_eq_getElem?_getD, List.getElem?_set_ne hne]

theorem heapLookupRef_mem : ∀ {s : scopeEntries} {q : String} {r : Nat},
    heapLookupRef s q = some r → ∃ k, (k, r) ∈ s
  | [], _, _, h => by simp [heapLookupRef] at h
  | (k0, r0) :: rest, q, r, h => by
    simp only [heapLookupRef] at h
    by_cases hk : k0 = q
    · rw [if_pos hk] at h
      have hr : r0 = r := by simpa using h
      exact ⟨k0, by simp [hr]⟩
    · rw [if_neg hk] at h
      obtain ⟨k, hm⟩ := heapLookupRef_mem h
      exact ⟨k, List.mem_cons_of_mem _ hm⟩

theorem heapAddToken_frame (h : Heap) (s : scopeEntries) (k : String) (a : Finset String)
    (n : Nat) (hn : n ≤ h.length) (hs : ∀ e ∈ s, n ≤ e.2) :
    (∀ r, r < n → Heap.get (heapAddToken h s k a).1 r = Heap.get h r) ∧
    n ≤ (heapAddToken h s k a).1.length ∧
    (∀ e ∈ (heapAddToken h s k a).2, n ≤ e.2) := by
  unfold heapAddToken Heap.alloc
  dsimp only
  unfold heapAdd
  cases hl : heapLookupRef s k with
  | none =>
    dsimp only
    refine ⟨?_, ?_, ?_⟩
    · intro r hr
      exact heapGet_append_left h [a] r (lt_of_lt_of_le hr hn)
    · rw [List.length_append]
      simp only [List.length_cons, List.length_nil]
      omega
    · intro e he
      rcases List.mem_append.mp he with he | he
      · exact hs e he
      · have : e = (k, h.length) := by simpa using he
        rw [this]
        exact hn
  | some r0 =>
    dsimp only
    obtain ⟨k1, hmem⟩ := heapLookupRef_mem hl
    have hr0 : n ≤ r0 := hs (k1, r0) hmem
    refine ⟨?_, ?_, hs⟩
    · intro r hr
      rw [heapGet_set_ne _ _ _ _ (by omega)]
      exact heapGet_append_left h [a] r (by omega)
    · unfold Heap.setCell
      rw [List.length_set, List.length_append]
      simp only [List.length_cons, List.length_nil]
      omega

theorem heapAddAll_frame :
    ∀ (adds : List (String × Finset String)) (h : Heap) (s : scopeEntries) (n : Nat),
      n ≤ h.length → (∀ e ∈ s, n ≤ e.2) →
      (∀ r, r < n → Heap.get (heapAddAll h s adds).1 r = Heap.get h r) ∧
      n ≤ (heapAddAll h s adds).1.length ∧
      (∀ e ∈ (heapAddAll h s adds).2, n ≤ e.2)
  | [], _, _, _, hn, hs => ⟨fun _ _ => rfl, hn, hs⟩
  | (k, a) :: rest, h, s, n, hn, hs => by
    unfold heapAddAll
    dsimp only
    obtain ⟨hf, hlen, hrefs⟩ := heapAddToken_frame h s k a n hn hs
    obtain ⟨hf2, hlen2, hrefs2⟩ :=
      heapAddAll_frame rest (heapAddToken h s k a).1 (heapAddToken h s k a).2 n hlen hrefs
    exact ⟨fun r hr => (hf2 r hr).trans (hf r hr), hlen2, hrefs2⟩

theorem heapClone_spec : ∀ (s : scopeEntries) (h : Heap),
    h.length ≤ (heapClone h s).1.length ∧
    (∀ r, r < h.length → Heap.get (heapClone h s).1 r = Heap.get h r) ∧
    (∀ e ∈ (heapClone h s).2, h.length ≤ e.2) ∧
    ((∀ e ∈ s, e.2 < h.length) →
      (heapClone h s).2.map (fun e => (e.1, Heap.get (heapClone h s).1 e.2))
        = s.map (fun e => (e.1, Heap.get h e.2)))
  | [], h => ⟨le_refl _, fun _ _ => rfl, by simp [heapClone], fun _ => rfl⟩
  | (k, r) :: rest, h => by
    unfold heapClone Heap.alloc
    dsimp only
    obtain ⟨ihlen, ihframe, ihrefs, ihval⟩ := heapClone_spec rest (h ++ [Heap.get h r])
    have hlen1 : h.length < (h ++ [Heap.get h r]).length := by
      rw [List.length_append]
      simp
    refine ⟨?_, ?_, ?_, ?_⟩
    · omega
    · intro r2 hr2
      rw [ihframe r2 (lt_trans hr2 hlen1)]
      exact heapGet_append_left h _ r2 hr2
    · intro e he
      rcases List.mem_cons.mp he with he | he
      · rw [he]
      · exact le_trans (le_of_lt hlen1) (ihrefs e he)
    · intro hvalid
      simp only [List.map_cons]
      congr 1
      · rw [ihframe h.length hlen1, heapGet_append_self]
      · rw [ihval (fun e he =>
          lt_trans (hvalid e (List.mem_cons_of_mem _ he)) hlen1)]
        apply List.map_congr_left
        intro e he
        rw [heapGet_append_left h _ e.2 (hvalid e (List.mem_cons_of_mem _ he))]

/-- Claim C9: `clone` yields an independent deep copy — after cloning a set and
applying any sequence of `add` calls to the clone, the original set's `flatten`
output through the final heap is unchanged; and on a locator for which
`repositoryScope` succeeds with token `ts` (on a `url.Parse` failure the Go
function returns the error and attaches nothing, as the embedding does),
`contextWithRepositoryScope` returns a child context carrying the clone of the
ambient scope (or a fresh empty map when the ambient scope is nil) with `ts`
added, over a heap through which the parent context's scope set still flattens
unchanged. -/
theorem C9_clone_independent (h : Heap) (s : scopeEntries)
    (adds : List (String × Finset String)) (ctx ctx0 : GoContext) (locator : String)
    (push : Bool) (ts : tokenScope) (hvalid : ∀ e ∈ s, e.2 < h.length)
    (hctx : ctx.scopes = some s) (hctx0 : ctx0.scopes = none)
    (hrs : repositoryScope locator push = .ok ts) :
    heapFlatten (heapAddAll (heapClone h s).1 (heapClone h s).2 adds).1 s = heapFlatten h s ∧
    heapFlatten (heapAddToken (heapClone h s).1 (heapClone h s).2 ts.resource ts.actions).1 s
      = heapFlatten h s ∧
    contextWithRepositoryScope h ctx locator push =
      .ok ((heapAddToken (heapClone h s).1 (heapClone h s).2 ts.resource ts.actions).1,
        ⟨some (heapAddToken (heapClone h s).1 (heapClone h s).2 ts.resource ts.actions).2⟩) ∧
    contextWithRepositoryScope h ctx0 locator push =
      .ok ((heapAddToken h [] ts.resource ts.actions).1,
        ⟨some (heapAddToken h [] ts.resource ts.actions).2⟩) := by
  obtain ⟨hclen, hcframe, hcrefs, _⟩ := heapClone_spec s h
  have hflat : ∀ H : Heap, (∀ r, r < h.length → Heap.get H r = Heap.get h r) →
      heapFlatten H s = heapFlatten h s := by
    intro H hH
    unfold heapFlatten
    congr 1
    apply List.map_congr_left
    intro e he
    rw [hH e.2 (hvalid e he)]
  refine ⟨?_, ?_, ?_, ?_⟩
  · obtain ⟨haframe, _, _⟩ :=
      heapAddAll_frame adds (heapClone h s).1 (heapClone h s).2 h.length hclen hcrefs
    exact hflat _ fun r hr => (haframe r hr).trans (hcframe r hr)
  · obtain ⟨htframe, _, _⟩ :=
      heapAddToken_frame (heapClone h s).1 (heapClone h s).2 ts.resource ts.actions
        h.length hclen hcrefs
    exact hflat _ fun r hr => (htframe r hr).trans (hcframe r hr)
  · unfold contextWithRepositoryScope getContextScopes
    rw [hrs]
    dsimp only
    rw [hctx]
    dsimp only
    rw [Option.getD_some]
  · unfold contextWithRepositoryScope getContextScopes
    rw [hrs]
    dsimp only
    rw [hctx0]
    dsimp only
    rw [Option.getD_none]

/-- Witness for C9_clone_independent at a one-cell heap, a one-token scope set,
two add calls on the clone, and a locator on which `repositoryScope` succeeds. -/
theorem C9_clone_independent_witness :
    heapFlatten
      (heapAddAll (heapClone [{"pull"}] [("repository:x", 0)]).1
        (heapClone [{"pull"}] [("repository:x", 0)]).2
        [("repository:x", {"push"}), ("y", {"pull"})]).1
      [("repository:x", 0)] = heapFlatten [{"pull"}] [("repository:x", 0)] ∧
    heapFlatten
      (heapAddToken (heapClone [{"pull"}] [("repository:x", 0)]).1
        (heapClone [{"pull"}] [("repository:x", 0)]).2
        "repository:foo" (insert "push" {"pull"})).1
      [("repository:x", 0)] = heapFlatten [{"pull"}] [("repository:x", 0)] ∧
    contextWithRepositoryScope [{"pull"}] ⟨some [("repository:x", 0)]⟩ "reg.io/foo" true
      = .ok ((heapAddToken (heapClone [{"pull"}] [("repository:x", 0)]).1
            (heapClone [{"pull"}] [("repository:x", 0)]).2
            "repository:foo" (insert "push" {"pull"})).1,
          ⟨some (heapAddToken (heapClone [{"pull"}] [("repository:x", 0)]).1
            (heapClone [{"pull"}] [("repository:x", 0)]).2
            "repository:foo" (insert "push" {"pull"})).2⟩) ∧
    contextWithRepositoryScope [{"pull"}] ⟨none⟩ "reg.io/foo" true
      = .ok ((heapAddToken [{"pull"}] [] "repository:foo" (insert "push" {"pull"})).1,
          ⟨some (heapAddToken [{"pull"}] [] "repository:foo" (insert "push" {"pull"})).2⟩) :=
  C9_clone_independent [{"pull"}] [("repository:x", 0)]
    [("repository:x", {"push"}), ("y", {"pull"})]
    ⟨some [("repository:x", 0)]⟩ ⟨none⟩ "reg.io/foo" true
    ⟨"repository:foo", insert "push" {"pull"}⟩ (by decide) rfl rfl rfl

end CnabToOci
